import Mathlib

/-
Verification of the course-dashboard graph logic (src/app.py).

Shallow embedding conventions:
* Python `str` is Lean `String` (Python string comparison and lexicographic
  `sorted` agree with Lean's code-point order on `String`).
* Python `dict` (insertion ordered, last write wins) is an association list
  `List (String × String)` with an explicit overwriting insert.
* Python `set` is used only for membership tests and `sorted(...)`; it is
  modelled by deduplicated lists / `Finset`s.
* Python `float` probabilities are modelled as `ℚ`; the `f"{x:.0f}"` format is
  modelled as round-half-to-even on the exact rational.
* Fallible code (KeyError on a missing dictionary key) returns `Option`.
-/

set_option maxRecDepth 4000

/-- Decimal digit to its ASCII character, as produced by Python's `str`. -/
def digitChar : Nat → Char
  | 0 => '0' | 1 => '1' | 2 => '2' | 3 => '3' | 4 => '4'
  | 5 => '5' | 6 => '6' | 7 => '7' | 8 => '8' | 9 => '9'
  | _ => '0'

/-- Value of a decimal digit character (left inverse of `digitChar`). -/
def digitVal (c : Char) : Nat :=
  c.toNat - 48

/-- Fuel-indexed decimal rendering of a natural number, most significant digit
first.  The fuel `n + 1` always suffices because the argument drops by a factor
of ten at each step. -/
def natReprAux : Nat → Nat → List Char
  | 0, _ => []
  | fuel + 1, n =>
    if n < 10 then [digitChar n]
    else natReprAux fuel (n / 10) ++ [digitChar (n % 10)]

/-- Decimal rendering of a natural number, matching Python's `str(n)`. -/
def natRepr (n : Nat) : String :=
  ⟨natReprAux (n + 1) n⟩

/-- Decimal rendering of an integer, matching Python's `str`/`format`. -/
def intRepr (i : Int) : String :=
  if i < 0 then "-" ++ natRepr i.natAbs else natRepr i.toNat

/-- UTF-8 encoding of one character as byte values, as produced by Python's
`str.encode('utf-8')`. -/
def utf8Char (c : Char) : List Nat :=
  let n := c.toNat
  if n < 128 then [n]
  else if n < 2048 then [192 + n / 64, 128 + n % 64]
  else if n < 65536 then [224 + n / 4096, 128 + n / 64 % 64, 128 + n % 64]
  else [240 + n / 262144, 128 + n / 4096 % 64, 128 + n / 64 % 64, 128 + n % 64]

/-- UTF-8 byte sequence of a string. -/
def utf8Bytes (s : String) : List Nat :=
  s.data.flatMap utf8Char

/-- Lower-case hexadecimal digit.  Arguments are always below 16; the default
arm keeps the function total without leaving the hexadecimal alphabet. -/
def hexDigit : Nat → Char
  | 0 => '0' | 1 => '1' | 2 => '2' | 3 => '3' | 4 => '4'
  | 5 => '5' | 6 => '6' | 7 => '7' | 8 => '8' | 9 => '9'
  | 10 => 'a' | 11 => 'b' | 12 => 'c' | 13 => 'd' | 14 => 'e'
  | 15 => 'f' | _ => '0'

/-- Two lower-case hex digits of a byte. -/
def hexByte (b : Nat) : List Char :=
  [hexDigit (b / 16 % 16), hexDigit (b % 16)]

/-- Per-round shift amounts of MD5. -/
def md5S : List Nat :=
  [7, 12, 17, 22, 7, 12, 17, 22, 7, 12, 17, 22, 7, 12, 17, 22,
   5, 9, 14, 20, 5, 9, 14, 20, 5, 9, 14, 20, 5, 9, 14, 20,
   4, 11, 16, 23, 4, 11, 16, 23, 4, 11, 16, 23, 4, 11, 16, 23,
   6, 10, 15, 21, 6, 10, 15, 21, 6, 10, 15, 21, 6, 10, 15, 21]

/-- Per-round additive constants of MD5 (⌊|sin(i+1)|·2³²⌋). -/
def md5K : List Nat :=
  [3614090360, 3905402710, 606105819, 3250441966,
   4118548399, 1200080426, 2821735955, 4249261313,
   1770035416, 2336552879, 4294925233, 2304563134,
   1804603682, 4254626195, 2792965006, 1236535329,
   4129170786, 3225465664, 643717713, 3921069994,
   3593408605, 38016083, 3634488961, 3889429448,
   568446438, 3275163606, 4107603335, 1163531501,
   2850285829, 4243563512, 1735328473, 2368359562,
   4294588738, 2272392833, 1839030562, 4259657740,
   2763975236, 1272893353, 4139469664, 3200236656,
   681279174, 3936430074, 3572445317, 76029189,
   3654602809, 3873151461, 530742520, 3299628645,
   4096336452, 1126891415, 2878612391, 4237533241,
   1700485571, 2399980690, 4293915773, 2240044497,
   1873313359, 4264355552, 2734768916, 1309151649,
   4149444226, 3174756917, 718787259, 3951481745]

/-- 32-bit left rotation on numbers below 2³². -/
def rotl32 (x n : Nat) : Nat :=
  ((x <<< n) ||| (x >>> (32 - n))) % 4294967296

/-- Bitwise complement within 32 bits. -/
def not32 (x : Nat) : Nat :=
  x ^^^ 4294967295

/-- One MD5 round applied to the state `(a, b, c, d)`. -/
def md5Round (M : List Nat) (st : Nat × Nat × Nat × Nat) (i : Nat) :
    Nat × Nat × Nat × Nat :=
  let a := st.1
  let b := st.2.1
  let c := st.2.2.1
  let d := st.2.2.2
  let f :=
    if i < 16 then (b &&& c) ||| (not32 b &&& d)
    else if i < 32 then (d &&& b) ||| (not32 d &&& c)
    else if i < 48 then b ^^^ c ^^^ d
    else c ^^^ (b ||| not32 d)
  let g :=
    if i < 16 then i
    else if i < 32 then (5 * i + 1) % 16
    else if i < 48 then (3 * i + 5) % 16
    else (7 * i) % 16
  let f := (f + a + md5K.getD i 0 + M.getD g 0) % 4294967296
  (d, (b + rotl32 f (md5S.getD i 0)) % 4294967296, b, c)

/-- Split a little-endian byte list into 32-bit words (length divisible by 4). -/
def bytesToWords : List Nat → List Nat
  | b0 :: b1 :: b2 :: b3 :: rest =>
    (b0 + 256 * b1 + 65536 * b2 + 16777216 * b3) :: bytesToWords rest
  | _ => []

/-- Split a list into 64-element chunks; the fuel (one step per chunk) is the
list length, which always suffices. -/
def chunks64 : Nat → List Nat → List (List Nat)
  | 0, _ => []
  | _, [] => []
  | fuel + 1, a :: l => (a :: l).take 64 :: chunks64 fuel ((a :: l).drop 64)

/-- MD5 padding: a 0x80 byte, zeros to 56 mod 64, then the 64-bit little-endian
bit length. -/
def md5Pad (msg : List Nat) : List Nat :=
  let len := msg.length
  let zeros := (119 - len % 64) % 64
  let bitLen := (8 * len) % 18446744073709551616
  msg ++ [128] ++ List.replicate zeros 0 ++
    [bitLen % 256, bitLen / 256 % 256, bitLen / 65536 % 256,
     bitLen / 16777216 % 256, bitLen / 4294967296 % 256,
     bitLen / 1099511627776 % 256, bitLen / 281474976710656 % 256,
     bitLen / 72057594037927936 % 256]

/-- Process one 64-byte chunk into the running MD5 state. -/
def md5Chunk (st : Nat × Nat × Nat × Nat) (chunk : List Nat) :
    Nat × Nat × Nat × Nat :=
  let M := bytesToWords chunk
  let r := (List.range 64).foldl (md5Round M) st
  ((st.1 + r.1) % 4294967296, (st.2.1 + r.2.1) % 4294967296,
   (st.2.2.1 + r.2.2.1) % 4294967296, (st.2.2.2 + r.2.2.2) % 4294967296)

/-- Little-endian bytes of a 32-bit word. -/
def wordBytes (w : Nat) : List Nat :=
  [w % 256, w / 256 % 256, w / 65536 % 256, w / 16777216 % 256]

/-- Full MD5 digest of a byte list, rendered as 32 lower-case hex characters. -/
def md5HexBytes (msg : List Nat) : List Char :=
  let padded := md5Pad msg
  let st := (chunks64 padded.length padded).foldl md5Chunk
    (1732584193, 4023233417, 2562383102, 271733878)
  ((wordBytes st.1 ++ wordBytes st.2.1 ++ wordBytes st.2.2.1 ++
    wordBytes st.2.2.2).flatMap hexByte)

/-- Python's `hashlib.md5(s.encode('utf-8')).hexdigest()`. -/
def md5hex (s : String) : String :=
  ⟨md5HexBytes (utf8Bytes s)⟩

/-- First eight characters of the MD5 hex digest, `hexdigest()[:8]` in the
source. -/
def md5hex8 (s : String) : String :=
  ⟨(md5hex s).data.take 8⟩

/-- Characters stripped by Python's `str.strip()` (the ASCII whitespace set;
non-ASCII whitespace would in any case be collapsed to `_` by the regex that
follows, so it never reaches an identifier). -/
def isPySpace (c : Char) : Bool :=
  c = ' ' || c = '\t' || c = '\n' || c = '\x0b' || c = '\x0c' || c = '\r'

/-- Python's `str.strip()`: drop leading and trailing whitespace. -/
def pyStrip (l : List Char) : List Char :=
  ((l.dropWhile isPySpace).reverse.dropWhile isPySpace).reverse

/-- ASCII lower-casing, as applied by `str.lower()` to the course names in the
data files. -/
def asciiLower (c : Char) : Char :=
  if 'A' ≤ c && c ≤ 'Z' then Char.ofNat (c.toNat + 32) else c

/-- Characters kept verbatim by the slug regex `[^a-z0-9]+`. -/
def isLowerDigit (c : Char) : Bool :=
  ('a' ≤ c && c ≤ 'z') || ('0' ≤ c && c ≤ '9')

/-- The substitution `re.sub(r'[^a-z0-9]+', '_', s)`: every maximal run of
characters outside `[a-z0-9]` becomes a single underscore.  The flag records
whether the previous character was part of such a run. -/
def subNonAlnum : List Char → Bool → List Char
  | [], _ => []
  | c :: rest, prevRun =>
    if isLowerDigit c then c :: subNonAlnum rest false
    else if prevRun then subNonAlnum rest true
    else '_' :: subNonAlnum rest true

/-- The substitution `re.sub(r'_+', '_', s)`: collapse underscore runs. -/
def subUnderscoreRuns : List Char → Bool → List Char
  | [], _ => []
  | c :: rest, prev =>
    if c = '_' then
      if prev then subUnderscoreRuns rest true
      else '_' :: subUnderscoreRuns rest true
    else c :: subUnderscoreRuns rest false

/-- Python's `str.strip('_')`. -/
def stripUnderscore (l : List Char) : List Char :=
  ((l.dropWhile (· = '_')).reverse.dropWhile (· = '_')).reverse

/-- The source's `_slugify`: lower-case, collapse non-alphanumeric runs to one
underscore, trim underscores, and fall back to `"node"` when empty. -/
def slugify (s : String) : String :=
  let t := (pyStrip s.data).map asciiLower
  let u := subUnderscoreRuns (subNonAlnum t false) false
  let v := stripUnderscore u
  if v = [] then "node" else ⟨v⟩

/-- Python-dict insertion on an association list: overwrite in place if the key
exists (keeping its position), otherwise append at the end. -/
def dictInsert : List (String × String) → String → String → List (String × String)
  | [], k, v => [(k, v)]
  | p :: rest, k, v => if p.1 = k then (k, v) :: rest else p :: dictInsert rest k v

/-- Python-dict lookup on an association list. -/
def alookup (m : List (String × String)) (k : String) : Option String :=
  (m.find? (fun p => p.1 == k)).map (·.2)

/-- The numeric-suffix candidate `f"{base}_{k}"`. -/
def numSuffix (base : String) (k : Nat) : String :=
  base ++ "_" ++ natRepr k

/-- Fuel-indexed form of the `while uid in used` loop: try `base_k`,
`base_(k+1)`, … and return the first candidate not in `used`.  When the fuel
runs out the final candidate is returned unchecked; `firstFree` supplies
enough fuel for that candidate to be provably fresh. -/
def firstFreeAux (used : List String) (base : String) : Nat → Nat → String
  | k, 0 => numSuffix base k
  | k, fuel + 1 =>
    let cand := numSuffix base k
    if cand ∈ used then firstFreeAux used base (k + 1) fuel else cand

/-- The `while uid in used` loop of `make_unique_ids`, starting at suffix 2. -/
def firstFree (used : List String) (base : String) : String :=
  firstFreeAux used base 2 used.length

/-- Identifier chosen for course `c` given the set of already-used identifiers:
the base slug; on collision the slug plus an 8-character MD5 digest of the
name; and if that is still taken, the first free numeric suffix. -/
def chooseUid (used : List String) (c : String) : String :=
  let base := slugify c
  let uid0 := if base ∈ used then base ++ "_" ++ md5hex8 c else base
  if uid0 ∈ used then firstFree used base else uid0

/-- One iteration of the `for c in courses` loop of `make_unique_ids`. -/
def uidStep (acc : List (String × String) × List String) (c : String) :
    List (String × String) × List String :=
  (dictInsert acc.1 c (chooseUid acc.2 c), chooseUid acc.2 c :: acc.2)

/-- The source's `make_unique_ids`: forward name→identifier dict and the
reverse dict obtained by inverting it. -/
def make_unique_ids (courses : List String) :
    List (String × String) × List (String × String) :=
  let m := (courses.foldl uidStep ([], [])).1
  (m, m.foldl (fun acc p => dictInsert acc p.2 p.1) [])

/-- The identifier alphabet `[a-z0-9_]` promised by the spec. -/
def isIdentChar (c : Char) : Prop :=
  ('a' ≤ c ∧ c ≤ 'z') ∨ ('0' ≤ c ∧ c ≤ '9') ∨ c = '_'

instance (c : Char) : Decidable (isIdentChar c) := by
  unfold isIdentChar
  infer_instance

/-- A well-formed identifier: non-empty and drawn from `[a-z0-9_]`. -/
def UidOk (u : String) : Prop :=
  u ≠ "" ∧ ∀ c ∈ u.data, isIdentChar c

/-- Keys of an association-list dictionary, in insertion order. -/
def keysOf (m : List (String × String)) : List String :=
  m.map Prod.fst

/-- Values of an association-list dictionary, in insertion order. -/
def valuesOf (m : List (String × String)) : List String :=
  m.map Prod.snd

/-- Invariant carried through the `for c in courses` loop: every stored
identifier is recorded in `used`, stored identifiers are pairwise distinct,
keys are distinct, and every stored identifier is well formed. -/
structure UidInv (acc : List (String × String) × List String) : Prop where
  val_mem : ∀ p ∈ acc.1, p.2 ∈ acc.2
  val_nodup : (valuesOf acc.1).Nodup
  key_nodup : (keysOf acc.1).Nodup
  val_ok : ∀ p ∈ acc.1, UidOk p.2

/-- Track names of the tracks containing a course (`node_tracks` in the
source), in the tracks mapping's iteration order. -/
def node_tracks (course : String) (tracks : List (String × List String)) : List String :=
  (tracks.filter (fun p => course ∈ p.2)).map Prod.fst

/-- First track containing the course (`primary_track` in the source). -/
def primary_track (course : String) (tracks : List (String × List String)) : Option String :=
  (tracks.find? (fun p => decide (course ∈ p.2))).map Prod.fst

/-- Decidability of `≤` on strings routed through the character lists, so that
concrete comparisons evaluate by `decide` (the default instance iterates over
byte positions and does not reduce in the kernel). -/
def decStrLE (a b : String) : Decidable (a ≤ b) :=
  decidable_of_iff (a.toList ≤ b.toList) String.le_iff_toList_le.symm

/-- Python's `sorted(set(...))`: deduplicate, then sort lexicographically by
code point (Lean's `≤` on `String` agrees with Python's string comparison). -/
def pySortedSet (l : List String) : List String :=
  @List.insertionSort String (fun a b => a ≤ b) (fun a b => decStrLE a b) l.dedup

/-- The source's `edge_tracks`: the sorted intersection of the endpoints'
track sets when non-empty, otherwise their sorted union. -/
def edge_tracks (src dst : String) (tracks : List (String × List String)) : List String :=
  let src_t := node_tracks src tracks
  let dst_t := node_tracks dst tracks
  let inter := pySortedSet (src_t.filter (fun t => t ∈ dst_t))
  if inter.isEmpty then pySortedSet (src_t ++ dst_t) else inter

/-- Rational subtraction, spelled out through `mkRat` (which normalizes), so
that concrete values reduce inside the kernel. -/
def ratSub (a b : ℚ) : ℚ :=
  mkRat (a.num * b.den - b.num * a.den) (a.den * b.den)

/-- Rational multiplication through `mkRat`, for the same reason. -/
def ratMul (a b : ℚ) : ℚ :=
  mkRat (a.num * b.num) (a.den * b.den)

/-- Round half to even, as Python's `format(x, '.0f')` does (modelled on exact
rationals rather than binary floats). -/
def roundHalfEven (q : ℚ) : ℤ :=
  let fl := q.floor
  let frac := ratSub q (mkRat fl 1)
  if frac < mkRat 1 2 then fl
  else if mkRat 1 2 < frac then fl + 1
  else if fl % 2 = 0 then fl else fl + 1

/-- The source's `friendly_percent`: `f"{x * 100:.0f}%"`. -/
def friendly_percent (x : ℚ) : String :=
  intRepr (roundHalfEven (ratMul x (mkRat 100 1))) ++ "%"

/-- A loaded school graph document: `nodes`, `edges` (source, target,
probability), `tracks`, `positions`. -/
structure Graph where
  nodes : List String
  edges : List (String × String × ℚ)
  tracks : List (String × List String)
  positions : List (String × ℚ × ℚ)
deriving DecidableEq

/-- Per-node presentation record handed to the rendering boundary (the node
dictionaries built by `build_cytoscape_elements`; `classes` is joined with
spaces at the widget boundary). -/
structure NodeEl where
  id : String
  label : String
  bg : String
  opacity : ℚ
  border : String
  borderWidth : Nat
  classes : List String
  position : Option (ℚ × ℚ)
deriving DecidableEq, Inhabited

/-- Per-edge presentation record handed to the rendering boundary. -/
structure EdgeEl where
  id : String
  source : String
  target : String
  label : String
  color : String
  opacity : ℚ
  classes : List String
deriving DecidableEq, Inhabited

/-- The fixed track palette `TRACK_COLORS`. -/
def TRACK_COLORS : List (String × String) :=
  [("Special education", "#7B61FF"), ("Lower-basic", "#FF8C42"),
   ("Upper-basic", "#F9C74F"), ("Regular", "#43AA8B"),
   ("Accelerated", "#277DA1"), ("Honors", "#577590"),
   ("Pre-IB", "#4D908E"), ("IB-general", "#90BE6D"),
   ("IB-standard", "#F9844A"), ("IB-honors", "#F94144")]

/-- The source's `DIM_COLOR`. -/
def DIM_COLOR : String := "#D0D4DC"

/-- The source's `EDGE_COLOR`. -/
def EDGE_COLOR : String := "#8D99AE"

/-- The source's `EDGE_HIGHLIGHT`. -/
def EDGE_HIGHLIGHT : String := "#111827"

/-- The source's `NODE_BORDER`. -/
def NODE_BORDER : String := "#111827"

/-- Python truthiness of an optional string: `None` and `''` are falsy. -/
def pyTruthy : Option String → Bool
  | none => false
  | some s => !(s == "")

/-- Split a character list at every occurrence of `sep`, matching Python's
`str.split(sep)` for a one-character separator. -/
def splitOnChar (sep : Char) : List Char → List (List Char)
  | [] => [[]]
  | c :: rest =>
    match splitOnChar sep rest with
    | [] => [[]]
    | g :: gs => if c = sep then [] :: g :: gs else (c :: g) :: gs

/-- The unpacking `s, t = selected_edge.split('→')`: succeeds exactly when the
split has two parts, otherwise the `ValueError` is modelled as `none`. -/
def splitArrow (s : String) : Option (String × String) :=
  match splitOnChar '→' s.data with
  | [a, b] => some (⟨a⟩, ⟨b⟩)
  | _ => none

/-- The three focus sets accumulated by `build_cytoscape_elements`:
`focus_tracks`, `focus_neighbors`, `focus_edges`. -/
structure Focus where
  tracks : Finset String
  neighbors : Finset String
  edges : Finset String
deriving DecidableEq

/-- The loop over edges run for a selected node: collect the endpoints of every
edge incident to `a` and those edges' course-level identifiers. -/
def nodeFocusFold (a : String) (edges : List (String × String × ℚ)) :
    Finset String × Finset String :=
  edges.foldl
    (fun acc e =>
      if e.1 = a ∨ e.2.1 = a then
        (insert e.1 (insert e.2.1 acc.1), insert (e.1 ++ "→" ++ e.2.1) acc.2)
      else acc)
    (∅, ∅)

/-- Lines 232–250 of the source: derive the focus sets from the current
selection.  A malformed selected edge (`split` not yielding two parts) is
caught and contributes nothing. -/
def computeFocus (g : Graph) (selected_node selected_edge : Option String) : Focus :=
  let base : Focus := ⟨∅, ∅, ∅⟩
  let f1 : Focus :=
    match selected_node with
    | some a =>
      if a = "" then base
      else
        let ne := nodeFocusFold a g.edges
        ⟨(node_tracks a g.tracks).toFinset, ne.1, ne.2⟩
    | none => base
  match selected_edge with
  | some eid =>
    if eid = "" then f1
    else
      match splitArrow eid with
      | some (s, t) =>
        ⟨f1.tracks ∪ (edge_tracks s t g.tracks).toFinset,
         f1.neighbors ∪ {s, t}, f1.edges ∪ {eid}⟩
      | none => f1
  | none => f1

/-- The lookup `TRACK_COLORS.get(t_primary, '#2B2D42')`. -/
def trackColorOf (t : Option String) : String :=
  match t with
  | some tr => ((TRACK_COLORS.find? (fun p => p.1 == tr)).map Prod.snd).getD "#2B2D42"
  | none => "#2B2D42"

/-- The lookup `positions.get(course)` (used only behind an `in` check in the source). -/
def posLookup (positions : List (String × ℚ × ℚ)) (course : String) : Option (ℚ × ℚ) :=
  (positions.find? (fun p => p.1 == course)).map Prod.snd

/-- One node dictionary of `build_cytoscape_elements` (lines 256–291); `none`
models the KeyError on a course missing from `course_to_uid`. -/
def mkNodeEl (g : Graph) (fc : Focus) (focus_mode : Bool) (selected_node : Option String)
    (course_to_uid : List (String × String)) (course : String) : Option NodeEl :=
  match alookup course_to_uid course with
  | none => none
  | some uid =>
    let dim := focus_mode &&
      !(node_tracks course g.tracks).any (fun t => decide (t ∈ fc.tracks)) &&
      !(decide (course ∈ fc.neighbors))
    let fill := if dim then DIM_COLOR else trackColorOf (primary_track course g.tracks)
    let opacity : ℚ := if dim then mkRat 18 100 else 1
    let isSel := selected_node == some course
    let borderWidth := if isSel then 6 else 2
    let classes := (if dim then ["dim"] else []) ++ (if isSel then ["selected"] else [])
    some ⟨uid, course, fill, opacity, NODE_BORDER, borderWidth, classes,
      posLookup g.positions course⟩

/-- One edge dictionary of `build_cytoscape_elements` (lines 293–337). -/
def mkEdgeEl (g : Graph) (fc : Focus) (focus_mode : Bool)
    (selected_node selected_edge : Option String)
    (course_to_uid : List (String × String)) (e : String × String × ℚ) : Option EdgeEl :=
  match alookup course_to_uid e.1, alookup course_to_uid e.2.1 with
  | some src_uid, some dst_uid =>
    let s := e.1
    let t := e.2.1
    let course_eid := s ++ "→" ++ t
    let is_self := s == t
    let show_label := is_self
      || (!is_self && pyTruthy selected_node
            && (selected_node == some s || selected_node == some t))
      || (!is_self && pyTruthy selected_edge && (selected_edge == some course_eid))
    let focusBranch := focus_mode && !is_self
    let in_focus := (edge_tracks s t g.tracks).any (fun tr => decide (tr ∈ fc.tracks))
      || decide (course_eid ∈ fc.edges)
    let ecolor := if focusBranch then (if in_focus then EDGE_HIGHLIGHT else DIM_COLOR)
      else EDGE_COLOR
    let opacity : ℚ := if focusBranch then (if in_focus then 1 else mkRat 10 100)
      else mkRat 85 100
    let classes := (if is_self then ["selfloop"] else [])
      ++ (if focusBranch then (if in_focus then ["focus"] else ["dim"]) else [])
    let label_txt := if show_label then friendly_percent e.2.2 else ""
    some ⟨src_uid ++ "→" ++ dst_uid, src_uid, dst_uid, label_txt, ecolor, opacity, classes⟩
  | _, _ => none

/-- Option-valued `map` over a list: all-or-nothing, modelling a loop that can
raise. -/
def mapMO {α β : Type} (f : α → Option β) : List α → Option (List β)
  | [] => some []
  | a :: as =>
    match f a, mapMO f as with
    | some b, some bs => some (b :: bs)
    | _, _ => none

/-- The source's `build_cytoscape_elements`: node records in node order
followed by edge records in edge order (returned as a pair; the source appends
them into one flat list).  The unused `uid_to_course` parameter is kept from
the source signature. -/
def build_cytoscape_elements (g : Graph) (selected_node selected_edge : Option String)
    (course_to_uid uid_to_course : List (String × String)) :
    Option (List NodeEl × List EdgeEl) :=
  let fc := computeFocus g selected_node selected_edge
  let focus_mode := pyTruthy selected_node || pyTruthy selected_edge
  match mapMO (mkNodeEl g fc focus_mode selected_node course_to_uid) g.nodes,
        mapMO (mkEdgeEl g fc focus_mode selected_node selected_edge course_to_uid) g.edges with
  | some ns, some es => some (ns, es)
  | _, _ => none

/-- Output of the "Arrow details" panel (lines 487–509 of the source): the
parsed endpoints, the raw fallback line written when parsing fails, the
probability of the first exactly-matching edge, and the track list shown for a
proper non-self pair. -/
structure ArrowPanel where
  fromTo : Option (String × String)
  raw : Option String
  chance : Option ℚ
  pathColors : Option (List String)
deriving DecidableEq

/-- The "Arrow details" panel computation for a selected edge identifier. -/
def arrow_details (g : Graph) (sel : String) : ArrowPanel :=
  let chance := (g.edges.find? (fun e => e.1 ++ "→" ++ e.2.1 == sel)).map (fun e => e.2.2)
  match splitArrow sel with
  | some st =>
    ⟨some st, none, chance,
      if st.1 ≠ "" ∧ st.2 ≠ "" ∧ st.1 ≠ st.2 then
        (let et := edge_tracks st.1 st.2 g.tracks
         if et.isEmpty then none else some et)
      else none⟩
  | none => ⟨none, some sel, chance, none⟩

theorem natReprAux_ne_nil (fuel n : Nat) (h : 0 < fuel) :
    natReprAux fuel n ≠ [] := by
  match fuel with
  | f + 1 =>
    simp only [natReprAux]
    split
    · simp
    · simp

theorem natReprAux_fuel_irrel (f₁ : Nat) :
    ∀ f₂ n, n < f₁ → n < f₂ → natReprAux f₁ n = natReprAux f₂ n := by
  induction f₁ with
  | zero => intro _ _ h; omega
  | succ f ih =>
    intro f₂ n h1 h2
    match f₂ with
    | f₂' + 1 =>
      simp only [natReprAux]
      split
      · rfl
      · have hn : 10 ≤ n := by omega
        have hlt : n / 10 < n := Nat.div_lt_self (by omega) (by omega)
        rw [ih f₂' (n / 10) (by omega) (by omega)]

theorem natReprAux_canon (fuel n : Nat) (h : n < fuel) :
    natReprAux fuel n = natReprAux (n + 1) n :=
  natReprAux_fuel_irrel fuel (n + 1) n h (Nat.lt_succ_self n)

theorem digitVal_digitChar {d : Nat} (h : d < 10) : digitVal (digitChar d) = d := by
  interval_cases d <;> decide

/-- Decimal rendering is injective: distinct numbers have distinct `str` forms. -/
theorem natRepr_injective : Function.Injective natRepr := by
  have key : ∀ n m : Nat, natReprAux (n + 1) n = natReprAux (m + 1) m → n = m := by
    intro n
    induction n using Nat.strong_induction_on with
    | _ n ih =>
      intro m h
      by_cases hn : n < 10 <;> by_cases hm : m < 10
      · simp only [natReprAux, if_pos hn, if_pos hm] at h
        have := congrArg (fun l => l.map digitVal) h
        simp [digitVal_digitChar hn, digitVal_digitChar hm] at this
        exact this
      · simp only [natReprAux, if_pos hn, if_neg hm] at h
        have hne := natReprAux_ne_nil m (m / 10) (by omega)
        have hlen := congrArg List.length h
        simp only [List.length_append, List.length_singleton] at hlen
        have : (natReprAux m (m / 10)).length = 0 := by omega
        exact absurd (List.length_eq_zero.mp this) hne
      · simp only [natReprAux, if_neg hn, if_pos hm] at h
        have hne := natReprAux_ne_nil n (n / 10) (by omega)
        have hlen := congrArg List.length h
        simp only [List.length_append, List.length_singleton] at hlen
        have : (natReprAux n (n / 10)).length = 0 := by omega
        exact absurd (List.length_eq_zero.mp this) hne
      · simp only [natReprAux, if_neg hn, if_neg hm] at h
        have h2 := List.append_inj' h (by simp)
        obtain ⟨hpre, hlast⟩ := h2
        have hdn : n / 10 < n := Nat.div_lt_self (by omega) (by omega)
        have hdm : m / 10 < m := Nat.div_lt_self (by omega) (by omega)
        rw [natReprAux_canon n (n / 10) (by omega),
            natReprAux_canon m (m / 10) (by omega)] at hpre
        have hdiv : n / 10 = m / 10 := ih (n / 10) hdn (m / 10) hpre
        have hmod : n % 10 = m % 10 := by
          have := congrArg digitVal (List.cons.injEq .. ▸ hlast).1
          rwa [digitVal_digitChar (Nat.mod_lt _ (by omega)),
               digitVal_digitChar (Nat.mod_lt _ (by omega))] at this
        omega
  intro n m h
  exact key n m (congrArg String.data h)

theorem natReprAux_digits (fuel n : Nat) :
    ∀ c ∈ natReprAux fuel n, '0' ≤ c ∧ c ≤ '9' := by
  induction fuel generalizing n with
  | zero => simp [natReprAux]
  | succ f ih =>
    intro c hc
    simp only [natReprAux] at hc
    split at hc
    · simp at hc
      subst hc
      rename_i hlt
      interval_cases n <;> decide
    · rw [List.mem_append] at hc
      rcases hc with hc | hc
      · exact ih (n / 10) c hc
      · simp at hc
        subst hc
        have : n % 10 < 10 := Nat.mod_lt _ (by omega)
        interval_cases h : n % 10 <;> decide

theorem subNonAlnum_chars (l : List Char) (b : Bool) :
    ∀ c ∈ subNonAlnum l b, isLowerDigit c = true ∨ c = '_' := by
  induction l generalizing b with
  | nil => simp [subNonAlnum]
  | cons x rest ih =>
    intro c hc
    simp only [subNonAlnum] at hc
    split at hc
    · rcases List.mem_cons.mp hc with rfl | hc
      · left; assumption
      · exact ih false c hc
    · split at hc
      · exact ih true c hc
      · rcases List.mem_cons.mp hc with rfl | hc
        · right; rfl
        · exact ih true c hc

theorem subUnderscoreRuns_chars (l : List Char) (b : Bool) :
    ∀ c ∈ subUnderscoreRuns l b, c ∈ l := by
  induction l generalizing b with
  | nil => simp [subUnderscoreRuns]
  | cons x rest ih =>
    intro c hc
    simp only [subUnderscoreRuns] at hc
    split at hc
    · rename_i hx
      split at hc
      · exact List.mem_cons_of_mem _ (ih true c hc)
      · rcases List.mem_cons.mp hc with rfl | hc
        · rw [← hx]; exact List.mem_cons_self _ _
        · exact List.mem_cons_of_mem _ (ih true c hc)
    · rcases List.mem_cons.mp hc with rfl | hc
      · exact List.mem_cons_self _ _
      · exact List.mem_cons_of_mem _ (ih false c hc)

theorem mem_of_mem_dropWhileP {α : Type} (p : α → Bool) (l : List α) {a : α}
    (h : a ∈ l.dropWhile p) : a ∈ l := by
  induction l with
  | nil => simp [List.dropWhile] at h
  | cons x rest ih =>
    rw [List.dropWhile_cons] at h
    split at h
    · exact List.mem_cons_of_mem _ (ih h)
    · exact h

theorem stripUnderscore_subset (l : List Char) :
    ∀ c ∈ stripUnderscore l, c ∈ l := by
  intro c hc
  unfold stripUnderscore at hc
  rw [List.mem_reverse] at hc
  have h1 := mem_of_mem_dropWhileP _ _ hc
  rw [List.mem_reverse] at h1
  exact mem_of_mem_dropWhileP _ _ h1

theorem isLowerDigit_ident {c : Char} (h : isLowerDigit c = true) : isIdentChar c := by
  unfold isLowerDigit at h
  rw [Bool.or_eq_true, Bool.and_eq_true, Bool.and_eq_true] at h
  unfold isIdentChar
  rcases h with ⟨h1, h2⟩ | ⟨h1, h2⟩
  · exact Or.inl ⟨of_decide_eq_true h1, of_decide_eq_true h2⟩
  · exact Or.inr (Or.inl ⟨of_decide_eq_true h1, of_decide_eq_true h2⟩)

/-- Every slug is non-empty (falling back to `"node"`) and stays inside the
identifier alphabet. -/
theorem slugify_ok (s : String) : UidOk (slugify s) := by
  unfold slugify UidOk
  dsimp only
  split
  · refine ⟨by decide, ?_⟩
    intro c hc
    fin_cases hc <;> decide
  · rename_i hne
    constructor
    · intro h
      exact hne (congrArg String.data h)
    · intro c hc
      have h1 := stripUnderscore_subset _ c hc
      have h2 := subUnderscoreRuns_chars _ _ c h1
      have h3 := subNonAlnum_chars _ _ c h2
      rcases h3 with h3 | rfl
      · exact isLowerDigit_ident h3
      · exact Or.inr (Or.inr rfl)

theorem hexDigit_ident (d : Nat) : isIdentChar (hexDigit d) := by
  unfold hexDigit
  split <;> decide

theorem md5hex8_ident (s : String) : ∀ c ∈ (md5hex8 s).data, isIdentChar c := by
  intro c hc
  have h1 : c ∈ (md5hex s).data := by
    have : (md5hex8 s).data = (md5hex s).data.take 8 := rfl
    rw [this] at hc
    exact (List.take_sublist 8 _).subset hc
  have h2 : c ∈ md5HexBytes (utf8Bytes s) := h1
  unfold md5HexBytes at h2
  rw [List.mem_flatMap] at h2
  obtain ⟨b, _, hb⟩ := h2
  unfold hexByte at hb
  rcases List.mem_cons.mp hb with rfl | hb
  · exact hexDigit_ident _
  · rcases List.mem_cons.mp hb with rfl | hb
    · exact hexDigit_ident _
    · simp at hb

theorem digit_ident {c : Char} (h : '0' ≤ c ∧ c ≤ '9') : isIdentChar c :=
  Or.inr (Or.inl h)

theorem natRepr_ident (n : Nat) : ∀ c ∈ (natRepr n).data, isIdentChar c := by
  intro c hc
  exact digit_ident (natReprAux_digits (n + 1) n c hc)

theorem uidOk_append (a b : String) (ha : UidOk a)
    (hb : ∀ c ∈ b.data, isIdentChar c) : UidOk (a ++ b) := by
  constructor
  · intro h
    have hd := congrArg String.data h
    rw [String.data_append] at hd
    have h0 : a.data = [] ∧ b.data = [] := List.append_eq_nil.mp hd
    exact ha.1 (String.ext h0.1)
  · intro c hc
    rw [String.data_append, List.mem_append] at hc
    rcases hc with hc | hc
    · exact ha.2 c hc
    · exact hb c hc

theorem underscore_ident : ∀ c ∈ ("_" : String).data, isIdentChar c := by
  intro c hc
  fin_cases hc
  decide

theorem numSuffix_ok (base : String) (hb : UidOk base) (k : Nat) :
    UidOk (numSuffix base k) := by
  unfold numSuffix
  exact uidOk_append _ _ (uidOk_append _ _ hb underscore_ident) (natRepr_ident k)

/-- Candidate identifiers `base_k` are pairwise distinct for distinct `k`. -/
theorem numSuffix_injective (base : String) : Function.Injective (numSuffix base) := by
  intro a b h
  apply natRepr_injective
  have h2 := congrArg String.data h
  simp only [numSuffix, String.data_append] at h2
  apply String.ext
  exact List.append_cancel_left h2

theorem firstFreeAux_not_mem (used : List String) (base : String) :
    ∀ fuel k, (∃ i, i ≤ fuel ∧ numSuffix base (k + i) ∉ used) →
      firstFreeAux used base k fuel ∉ used := by
  intro fuel
  induction fuel with
  | zero =>
    intro k ⟨i, hi, hfree⟩
    have : i = 0 := by omega
    subst this
    simpa [firstFreeAux] using hfree
  | succ f ih =>
    intro k ⟨i, hi, hfree⟩
    simp only [firstFreeAux]
    split
    · rename_i hc
      apply ih (k + 1)
      match i with
      | 0 => exact absurd hc (by simpa using hfree)
      | j + 1 => exact ⟨j, by omega, by rw [show k + 1 + j = k + (j + 1) by omega]; exact hfree⟩
    · assumption

theorem firstFreeAux_shape (used : List String) (base : String) :
    ∀ fuel k, ∃ j, firstFreeAux used base k fuel = numSuffix base j := by
  intro fuel
  induction fuel with
  | zero => intro k; exact ⟨k, rfl⟩
  | succ f ih =>
    intro k
    simp only [firstFreeAux]
    split
    · exact ih (k + 1)
    · exact ⟨k, rfl⟩

/-- The `while` loop of `make_unique_ids` always lands on an identifier that is
not yet used: among the `used.length + 1` pairwise-distinct candidates it can
inspect, at least one is free. -/
theorem firstFree_not_mem (used : List String) (base : String) :
    firstFree used base ∉ used := by
  apply firstFreeAux_not_mem
  by_contra hall
  push_neg at hall
  set L : List String :=
    (List.range (used.length + 1)).map (fun i => numSuffix base (2 + i)) with hL
  have hnodup : L.Nodup := by
    refine List.Nodup.map ?_ (List.nodup_range _)
    intro a b hab
    have := numSuffix_injective base hab
    omega
  have hsub : L ⊆ used := by
    intro x hx
    rw [hL, List.mem_map] at hx
    obtain ⟨i, hi, rfl⟩ := hx
    rw [List.mem_range] at hi
    exact hall i (by omega)
  have hle := (hnodup.subperm hsub).length_le
  simp [hL] at hle

theorem firstFree_ok (used : List String) (base : String) (hb : UidOk base) :
    UidOk (firstFree used base) := by
  obtain ⟨j, hj⟩ := firstFreeAux_shape used base used.length 2
  unfold firstFree
  rw [hj]
  exact numSuffix_ok _ hb j

theorem chooseUid_not_mem (used : List String) (c : String) :
    chooseUid used c ∉ used := by
  unfold chooseUid
  dsimp only
  by_cases h1 : slugify c ∈ used
  · simp only [if_pos h1]
    by_cases h2 : slugify c ++ "_" ++ md5hex8 c ∈ used
    · simp only [if_pos h2]
      exact firstFree_not_mem used (slugify c)
    · simp only [if_neg h2]
      exact h2
  · simp only [if_neg h1]
    exact h1

theorem chooseUid_ok (used : List String) (c : String) : UidOk (chooseUid used c) := by
  unfold chooseUid
  dsimp only
  by_cases h1 : slugify c ∈ used
  · simp only [if_pos h1]
    by_cases h2 : slugify c ++ "_" ++ md5hex8 c ∈ used
    · simp only [if_pos h2]
      exact firstFree_ok used _ (slugify_ok c)
    · simp only [if_neg h2]
      exact uidOk_append _ _ (uidOk_append _ _ (slugify_ok c) underscore_ident)
        (md5hex8_ident c)
  · simp only [if_neg h1]
    exact slugify_ok c

theorem dictInsert_values_cases (m : List (String × String)) (k v : String) :
    ∀ x ∈ valuesOf (dictInsert m k v), x = v ∨ x ∈ valuesOf m := by
  induction m with
  | nil => simp [dictInsert, valuesOf]
  | cons p rest ih =>
    intro x hx
    simp only [dictInsert] at hx
    split at hx
    · simp only [valuesOf, List.map_cons, List.mem_cons] at hx ⊢
      tauto
    · simp only [valuesOf, List.map_cons, List.mem_cons] at hx ⊢
      rcases hx with rfl | hx
      · tauto
      · rcases ih x hx with h | h
        · tauto
        · exact Or.inr (Or.inr h)

theorem dictInsert_mem_cases (m : List (String × String)) (k v : String) :
    ∀ q ∈ dictInsert m k v, q = (k, v) ∨ q ∈ m := by
  induction m with
  | nil => simp [dictInsert]
  | cons p rest ih =>
    intro q hq
    simp only [dictInsert] at hq
    split at hq
    · rcases List.mem_cons.mp hq with rfl | hq
      · tauto
      · exact Or.inr (List.mem_cons_of_mem _ hq)
    · rcases List.mem_cons.mp hq with rfl | hq
      · exact Or.inr (List.mem_cons_self _ _)
      · rcases ih q hq with h | h
        · tauto
        · exact Or.inr (List.mem_cons_of_mem _ h)

theorem dictInsert_keys_cases (m : List (String × String)) (k v : String) :
    ∀ x ∈ keysOf (dictInsert m k v), x = k ∨ x ∈ keysOf m := by
  intro x hx
  rw [keysOf, List.mem_map] at hx
  obtain ⟨q, hq, rfl⟩ := hx
  rcases dictInsert_mem_cases m k v q hq with rfl | h
  · exact Or.inl rfl
  · exact Or.inr (List.mem_map_of_mem _ h)

theorem dictInsert_values_nodup (m : List (String × String)) (k v : String)
    (h : (valuesOf m).Nodup) (hv : v ∉ valuesOf m) :
    (valuesOf (dictInsert m k v)).Nodup := by
  induction m with
  | nil => simp [dictInsert, valuesOf]
  | cons p rest ih =>
    simp only [valuesOf, List.map_cons, List.nodup_cons, List.mem_cons] at h hv
    push_neg at hv
    simp only [dictInsert]
    split
    · simp only [valuesOf, List.map_cons, List.nodup_cons]
      exact ⟨hv.2, h.2⟩
    · simp only [valuesOf, List.map_cons, List.nodup_cons]
      refine ⟨?_, ih h.2 hv.2⟩
      intro hmem
      rcases dictInsert_values_cases rest k v p.2 hmem with rfl | hmem
      · exact hv.1 rfl
      · exact h.1 hmem

theorem dictInsert_keys_nodup (m : List (String × String)) (k v : String)
    (h : (keysOf m).Nodup) : (keysOf (dictInsert m k v)).Nodup := by
  induction m with
  | nil => simp [dictInsert, keysOf]
  | cons p rest ih =>
    simp only [keysOf, List.map_cons, List.nodup_cons] at h
    simp only [dictInsert]
    split
    · rename_i hpk
      simp only [keysOf, List.map_cons, List.nodup_cons]
      exact ⟨hpk ▸ h.1, h.2⟩
    · rename_i hpk
      simp only [keysOf, List.map_cons, List.nodup_cons]
      refine ⟨?_, ih h.2⟩
      intro hmem
      rcases dictInsert_keys_cases rest k v p.1 hmem with rfl | hmem
      · exact hpk rfl
      · exact h.1 hmem

theorem alookup_dictInsert_self (m : List (String × String)) (k v : String) :
    alookup (dictInsert m k v) k = some v := by
  induction m with
  | nil => simp [dictInsert, alookup, List.find?]
  | cons p rest ih =>
    simp only [dictInsert]
    split
    · simp [alookup, List.find?]
    · rename_i hpk
      simp only [alookup, List.find?] at ih ⊢
      rw [show (p.1 == k) = false from beq_eq_false_iff_ne.mpr hpk]
      exact ih

theorem alookup_eq_some_of_mem (m : List (String × String))
    (hk : (keysOf m).Nodup) {k v : String} (hm : (k, v) ∈ m) :
    alookup m k = some v := by
  induction m with
  | nil => simp at hm
  | cons p rest ih =>
    simp only [keysOf, List.map_cons, List.nodup_cons] at hk
    rcases List.mem_cons.mp hm with rfl | hm
    · simp [alookup, List.find?]
    · have hne : p.1 ≠ k := by
        intro h
        exact hk.1 (h ▸ List.mem_map_of_mem Prod.fst hm)
      simp only [alookup, List.find?]
      rw [show (p.1 == k) = false from beq_eq_false_iff_ne.mpr hne]
      exact ih hk.2 hm

theorem alookup_mem (m : List (String × String)) {k v : String}
    (h : alookup m k = some v) : (k, v) ∈ m := by
  unfold alookup at h
  cases hf : m.find? (fun p => p.1 == k) with
  | none => rw [hf] at h; simp at h
  | some q =>
    rw [hf] at h
    have h : q.2 = v := Option.some.inj h
    have hq := List.find?_some hf
    have hqm := List.mem_of_find?_eq_some hf
    have : q.1 = k := by simpa using hq
    have : q = (k, v) := by
      cases q
      simp_all
    exact this ▸ hqm

theorem uidStep_inv (acc : List (String × String) × List String) (c : String)
    (h : UidInv acc) : UidInv (uidStep acc c) := by
  have hfresh : chooseUid acc.2 c ∉ acc.2 := chooseUid_not_mem acc.2 c
  have hfreshv : chooseUid acc.2 c ∉ valuesOf acc.1 := by
    intro hmem
    rw [valuesOf, List.mem_map] at hmem
    obtain ⟨p, hp, hv⟩ := hmem
    exact hfresh (hv ▸ h.val_mem p hp)
  refine ⟨?_, ?_, ?_, ?_⟩
  · intro p hp
    rcases dictInsert_mem_cases acc.1 c (chooseUid acc.2 c) p hp with rfl | hp
    · exact List.mem_cons_self _ _
    · exact List.mem_cons_of_mem _ (h.val_mem p hp)
  · exact dictInsert_values_nodup acc.1 c _ h.val_nodup hfreshv
  · exact dictInsert_keys_nodup acc.1 c _ h.key_nodup
  · intro p hp
    rcases dictInsert_mem_cases acc.1 c (chooseUid acc.2 c) p hp with rfl | hp
    · exact chooseUid_ok acc.2 c
    · exact h.val_ok p hp

theorem foldl_uidStep_inv (courses : List String) :
    ∀ acc, UidInv acc → UidInv (courses.foldl uidStep acc) := by
  induction courses with
  | nil => intro acc h; exact h
  | cons c rest ih =>
    intro acc h
    exact ih (uidStep acc c) (uidStep_inv acc c h)

theorem make_unique_ids_inv (courses : List String) :
    UidInv (courses.foldl uidStep ([], [])) :=
  foldl_uidStep_inv courses ([], []) ⟨by simp, by simp [valuesOf], by simp [keysOf], by simp⟩

theorem dictInsert_of_key_fresh (m : List (String × String)) (k v : String)
    (h : k ∉ keysOf m) : dictInsert m k v = m ++ [(k, v)] := by
  induction m with
  | nil => rfl
  | cons p rest ih =>
    simp only [keysOf, List.map_cons, List.mem_cons] at h
    push_neg at h
    simp only [dictInsert]
    rw [if_neg (fun hh => h.1 hh.symm)]
    rw [ih h.2]
    simp

/-- Inverting a dictionary with pairwise-distinct values appends swapped pairs
one by one, yielding exactly the swapped association list. -/
theorem foldl_swap_dictInsert (m : List (String × String)) :
    ∀ acc, (∀ p ∈ m, p.2 ∉ keysOf acc) → (valuesOf m).Nodup →
      m.foldl (fun a p => dictInsert a p.2 p.1) acc = acc ++ m.map Prod.swap := by
  induction m with
  | nil => intro acc _ _; simp
  | cons p rest ih =>
    intro acc hkeys hnodup
    simp only [valuesOf, List.map_cons, List.nodup_cons] at hnodup
    simp only [List.foldl_cons]
    rw [dictInsert_of_key_fresh acc p.2 p.1 (hkeys p (List.mem_cons_self _ _))]
    rw [ih (acc ++ [(p.2, p.1)]) ?_ hnodup.2]
    · simp [Prod.swap]
    · intro q hq
      rw [keysOf, List.map_append, List.mem_append]
      push_neg
      constructor
      · exact hkeys q (List.mem_cons_of_mem _ hq)
      · simp only [List.map_cons, List.map_nil, List.mem_singleton]
        intro hqv
        exact hnodup.1 (hqv ▸ List.mem_map_of_mem Prod.snd hq)

theorem make_unique_ids_snd (courses : List String) :
    (make_unique_ids courses).2 = (make_unique_ids courses).1.map Prod.swap := by
  unfold make_unique_ids
  dsimp only
  rw [foldl_swap_dictInsert _ [] (by simp [keysOf]) (make_unique_ids_inv courses).val_nodup]
  simp

theorem make_unique_ids_fst (courses : List String) :
    (make_unique_ids courses).1 = (courses.foldl uidStep ([], [])).1 := rfl

theorem keysOf_map_swap (m : List (String × String)) :
    keysOf (m.map Prod.swap) = valuesOf m := by
  simp [keysOf, valuesOf, List.map_map]

theorem mem_map_swap (m : List (String × String)) (u c : String) :
    (u, c) ∈ m.map Prod.swap ↔ (c, u) ∈ m := by
  rw [List.mem_map]
  constructor
  · rintro ⟨q, hq, hswap⟩
    have : q = (c, u) := by
      cases q
      simp [Prod.swap] at hswap
      simp [hswap.1, hswap.2]
    exact this ▸ hq
  · intro h
    exact ⟨(c, u), h, rfl⟩

theorem valuesOf_nodup_injective (m : List (String × String))
    (h : (valuesOf m).Nodup) {c₁ c₂ u : String}
    (h₁ : (c₁, u) ∈ m) (h₂ : (c₂, u) ∈ m) : c₁ = c₂ := by
  induction m with
  | nil => simp at h₁
  | cons p rest ih =>
    simp only [valuesOf, List.map_cons, List.nodup_cons] at h
    rcases List.mem_cons.mp h₁ with rfl | h₁ <;> rcases List.mem_cons.mp h₂ with h2 | h₂
    · exact (congrArg Prod.fst h2).symm
    · exact absurd (List.mem_map_of_mem Prod.snd h₂) h.1
    · have hp2 : p.2 = u := (congrArg Prod.snd h2).symm
      exact absurd (List.mem_map_of_mem Prod.snd h₁) (hp2 ▸ h.1)
    · exact ih h.2 h₁ h₂

theorem make_unique_ids_values_nodup (courses : List String) :
    (valuesOf (make_unique_ids courses).1).Nodup :=
  (make_unique_ids_inv courses).val_nodup

theorem make_unique_ids_keys_nodup (courses : List String) :
    (keysOf (make_unique_ids courses).1).Nodup :=
  (make_unique_ids_inv courses).key_nodup

/-- Forward lookup followed by reverse lookup recovers the original name. -/
theorem make_unique_ids_left_inverse (courses : List String) {c u : String}
    (h : alookup (make_unique_ids courses).1 c = some u) :
    alookup (make_unique_ids courses).2 u = some c := by
  rw [make_unique_ids_snd]
  have hmem := alookup_mem _ h
  apply alookup_eq_some_of_mem
  · rw [keysOf_map_swap]
    exact make_unique_ids_values_nodup courses
  · exact (mem_map_swap _ u c).mpr hmem

/-- Reverse lookup followed by forward lookup recovers the identifier. -/
theorem make_unique_ids_right_inverse (courses : List String) {u c : String}
    (h : alookup (make_unique_ids courses).2 u = some c) :
    alookup (make_unique_ids courses).1 c = some u := by
  rw [make_unique_ids_snd] at h
  have hmem := (mem_map_swap _ u c).mp (alookup_mem _ h)
  exact alookup_eq_some_of_mem _ (make_unique_ids_keys_nodup courses) hmem

/-- Distinct course names stored in the forward map receive distinct
identifiers. -/
theorem make_unique_ids_injective (courses : List String) {c₁ c₂ u : String}
    (h₁ : alookup (make_unique_ids courses).1 c₁ = some u)
    (h₂ : alookup (make_unique_ids courses).1 c₂ = some u) : c₁ = c₂ :=
  valuesOf_nodup_injective _ (make_unique_ids_values_nodup courses)
    (alookup_mem _ h₁) (alookup_mem _ h₂)

/-- Every identifier stored by `make_unique_ids` is well formed. -/
theorem make_unique_ids_uid_ok (courses : List String) {c u : String}
    (h : alookup (make_unique_ids courses).1 c = some u) : UidOk u :=
  (make_unique_ids_inv courses).val_ok _ (alookup_mem _ h)

theorem pySortedSet_eq_canonical (l : List String) :
    pySortedSet l = List.insertionSort (fun a b => a ≤ b) l.dedup := by
  unfold pySortedSet
  congr 1

theorem mem_pySortedSet (l : List String) (x : String) :
    x ∈ pySortedSet l ↔ x ∈ l := by
  rw [pySortedSet_eq_canonical, List.mem_insertionSort, List.mem_dedup]

theorem pySortedSet_sorted (l : List String) :
    List.Sorted (fun a b : String => a ≤ b) (pySortedSet l) := by
  rw [pySortedSet_eq_canonical]
  exact List.sorted_insertionSort _ _

theorem pySortedSet_nodup (l : List String) : (pySortedSet l).Nodup := by
  rw [pySortedSet_eq_canonical]
  exact ((List.perm_insertionSort _ _).nodup_iff).mpr l.nodup_dedup

theorem pySortedSet_congr (l₁ l₂ : List String) (h : ∀ x, x ∈ l₁ ↔ x ∈ l₂) :
    pySortedSet l₁ = pySortedSet l₂ := by
  apply List.eq_of_perm_of_sorted ?_ (pySortedSet_sorted l₁) (pySortedSet_sorted l₂)
  rw [List.perm_ext_iff_of_nodup (pySortedSet_nodup l₁) (pySortedSet_nodup l₂)]
  intro a
  rw [mem_pySortedSet, mem_pySortedSet]
  exact h a

theorem mem_edge_tracks_filter (src dst : String) (tracks : List (String × List String))
    (x : String) :
    (x ∈ (node_tracks src tracks).filter (fun t => decide (t ∈ node_tracks dst tracks))) ↔
      x ∈ node_tracks src tracks ∧ x ∈ node_tracks dst tracks := by
  rw [List.mem_filter]
  simp

/-- The function `edge_tracks` is symmetric in its two endpoints. -/
theorem edge_tracks_comm (src dst : String) (tracks : List (String × List String)) :
    edge_tracks src dst tracks = edge_tracks dst src tracks := by
  unfold edge_tracks
  dsimp only
  have hI : pySortedSet
        ((node_tracks src tracks).filter (fun t => decide (t ∈ node_tracks dst tracks))) =
      pySortedSet
        ((node_tracks dst tracks).filter (fun t => decide (t ∈ node_tracks src tracks))) := by
    apply pySortedSet_congr
    intro x
    rw [mem_edge_tracks_filter, mem_edge_tracks_filter]
    tauto
  have hU : pySortedSet (node_tracks src tracks ++ node_tracks dst tracks) =
      pySortedSet (node_tracks dst tracks ++ node_tracks src tracks) := by
    apply pySortedSet_congr
    intro x
    rw [List.mem_append, List.mem_append]
    tauto
  rw [hI, hU]

/-- The result of `edge_tracks` is sorted, hence independent of set iteration order. -/
theorem edge_tracks_sorted (src dst : String) (tracks : List (String × List String)) :
    List.Sorted (fun a b : String => a ≤ b) (edge_tracks src dst tracks) := by
  unfold edge_tracks
  dsimp only
  split
  · exact pySortedSet_sorted _
  · exact pySortedSet_sorted _

/-- When the endpoints share a track, `edge_tracks` is exactly the
intersection of their track sets. -/
theorem edge_tracks_toFinset_inter (src dst : String) (tracks : List (String × List String))
    (h : ∃ t, t ∈ node_tracks src tracks ∧ t ∈ node_tracks dst tracks) :
    (edge_tracks src dst tracks).toFinset =
      (node_tracks src tracks).toFinset ∩ (node_tracks dst tracks).toFinset := by
  obtain ⟨t, ht⟩ := h
  have htmem : t ∈ pySortedSet
      ((node_tracks src tracks).filter (fun tr => decide (tr ∈ node_tracks dst tracks))) := by
    rw [mem_pySortedSet, mem_edge_tracks_filter]
    exact ht
  unfold edge_tracks
  dsimp only
  rw [if_neg (by rw [List.isEmpty_iff]; exact fun hnil => by simp [hnil] at htmem)]
  ext x
  rw [List.mem_toFinset, mem_pySortedSet, mem_edge_tracks_filter, Finset.mem_inter,
    List.mem_toFinset, List.mem_toFinset]

/-- When the endpoints share no track, `edge_tracks` is exactly the union of
their track sets. -/
theorem edge_tracks_toFinset_union (src dst : String) (tracks : List (String × List String))
    (h : ¬∃ t, t ∈ node_tracks src tracks ∧ t ∈ node_tracks dst tracks) :
    (edge_tracks src dst tracks).toFinset =
      (node_tracks src tracks).toFinset ∪ (node_tracks dst tracks).toFinset := by
  push_neg at h
  have hfilter : (node_tracks src tracks).filter
      (fun tr => decide (tr ∈ node_tracks dst tracks)) = [] := by
    rw [List.filter_eq_nil_iff]
    intro a ha
    simpa using h a ha
  unfold edge_tracks
  dsimp only
  rw [hfilter]
  rw [if_pos (by rfl)]
  ext x
  rw [List.mem_toFinset, mem_pySortedSet, List.mem_append, Finset.mem_union,
    List.mem_toFinset, List.mem_toFinset]

/-- Two endpoints with the same single-track membership get exactly that
singleton. -/
theorem edge_tracks_singleton (src dst t : String) (tracks : List (String × List String))
    (hs : node_tracks src tracks = [t]) (hd : node_tracks dst tracks = [t]) :
    edge_tracks src dst tracks = [t] := by
  unfold edge_tracks
  dsimp only
  rw [hs, hd]
  have hfilter : ([t].filter (fun tr => decide (tr ∈ [t]))) = [t] := by simp
  rw [hfilter]
  have hsing : pySortedSet [t] = [t] := by
    rw [pySortedSet_eq_canonical]
    rw [List.dedup_cons_of_not_mem (by simp), List.dedup_nil]
    simp [List.insertionSort]
  rw [hsing]
  rfl

theorem mapMO_cons_some {α β : Type} (f : α → Option β) (a : α) (as : List α) (r : List β)
    (h : mapMO f (a :: as) = some r) :
    ∃ b bs, f a = some b ∧ mapMO f as = some bs ∧ r = b :: bs := by
  unfold mapMO at h
  cases hfa : f a with
  | none => rw [hfa] at h; simp at h
  | some b =>
    cases hrec : mapMO f as with
    | none => rw [hfa, hrec] at h; simp at h
    | some bs =>
      rw [hfa, hrec] at h
      exact ⟨b, bs, rfl, rfl, (Option.some.inj h).symm⟩

theorem mapMO_length {α β : Type} (f : α → Option β) :
    ∀ (l : List α) (r : List β), mapMO f l = some r → r.length = l.length := by
  intro l
  induction l with
  | nil =>
    intro r h
    unfold mapMO at h
    rw [← Option.some.inj h]
    rfl
  | cons a as ih =>
    intro r h
    obtain ⟨b, bs, _, hrec, rfl⟩ := mapMO_cons_some f a as r h
    simp [ih bs hrec]

theorem mapMO_get {α β : Type} (f : α → Option β) :
    ∀ (l : List α) (r : List β), mapMO f l = some r →
      ∀ i (hi : i < l.length) (hj : i < r.length),
        f (l.get ⟨i, hi⟩) = some (r.get ⟨i, hj⟩) := by
  intro l
  induction l with
  | nil => intro r _ i hi; simp at hi
  | cons a as ih =>
    intro r h i hi hj
    obtain ⟨b, bs, hfa, hrec, rfl⟩ := mapMO_cons_some f a as r h
    match i with
    | 0 => simpa using hfa
    | i + 1 =>
      exact ih bs hrec i (by simpa using hi) (by simpa using hj)

theorem mapMO_mem {α β : Type} (f : α → Option β) :
    ∀ (l : List α) (r : List β), mapMO f l = some r →
      ∀ el ∈ r, ∃ a ∈ l, f a = some el := by
  intro l
  induction l with
  | nil =>
    intro r h el hel
    unfold mapMO at h
    rw [← Option.some.inj h] at hel
    simp at hel
  | cons a as ih =>
    intro r h el hel
    obtain ⟨b, bs, hfa, hrec, rfl⟩ := mapMO_cons_some f a as r h
    rcases List.mem_cons.mp hel with rfl | hel
    · exact ⟨a, List.mem_cons_self _ _, hfa⟩
    · obtain ⟨a', ha', hfa'⟩ := ih bs hrec el hel
      exact ⟨a', List.mem_cons_of_mem _ ha', hfa'⟩

theorem nodeFocusFold_fst_mem (a : String) (edges : List (String × String × ℚ)) :
    ∀ (acc : Finset String × Finset String) (x : String),
      (x ∈ (edges.foldl
          (fun acc e =>
            if e.1 = a ∨ e.2.1 = a then
              (insert e.1 (insert e.2.1 acc.1), insert (e.1 ++ "→" ++ e.2.1) acc.2)
            else acc) acc).1 ↔
        x ∈ acc.1 ∨ ∃ e, e ∈ edges ∧ (e.1 = a ∨ e.2.1 = a) ∧ (x = e.1 ∨ x = e.2.1)) := by
  induction edges with
  | nil => simp
  | cons e rest ih =>
    intro acc x
    simp only [List.foldl_cons]
    by_cases hcond : e.1 = a ∨ e.2.1 = a
    · rw [if_pos hcond]
      rw [ih (insert e.1 (insert e.2.1 acc.1), insert (e.1 ++ "→" ++ e.2.1) acc.2) x]
      simp only [Finset.mem_insert, List.mem_cons]
      constructor
      · rintro ((rfl | rfl | hx) | ⟨e', he', hc', hx'⟩)
        · exact Or.inr ⟨e, Or.inl rfl, hcond, Or.inl rfl⟩
        · exact Or.inr ⟨e, Or.inl rfl, hcond, Or.inr rfl⟩
        · exact Or.inl hx
        · exact Or.inr ⟨e', Or.inr he', hc', hx'⟩
      · rintro (hx | ⟨e', (rfl | he'), hc', hx'⟩)
        · exact Or.inl (Or.inr (Or.inr hx))
        · rcases hx' with rfl | rfl
          · exact Or.inl (Or.inl rfl)
          · exact Or.inl (Or.inr (Or.inl rfl))
        · exact Or.inr ⟨e', he', hc', hx'⟩
    · rw [if_neg hcond]
      rw [ih acc x]
      simp only [List.mem_cons]
      constructor
      · rintro (hx | ⟨e', he', hc', hx'⟩)
        · exact Or.inl hx
        · exact Or.inr ⟨e', Or.inr he', hc', hx'⟩
      · rintro (hx | ⟨e', (rfl | he'), hc', hx'⟩)
        · exact Or.inl hx
        · exact absurd hc' hcond
        · exact Or.inr ⟨e', he', hc', hx'⟩

/-- Membership in the `focus_neighbors` set of a selected node: exactly the
endpoints of the edges incident to it. -/
theorem mem_nodeFocusFold_fst (a x : String) (edges : List (String × String × ℚ)) :
    x ∈ (nodeFocusFold a edges).1 ↔
      ∃ e, e ∈ edges ∧ (e.1 = a ∨ e.2.1 = a) ∧ (x = e.1 ∨ x = e.2.1) := by
  unfold nodeFocusFold
  rw [nodeFocusFold_fst_mem a edges (∅, ∅) x]
  simp

theorem computeFocus_node (g : Graph) (A : String) (hA : A ≠ "") :
    computeFocus g (some A) none =
      ⟨(node_tracks A g.tracks).toFinset, (nodeFocusFold A g.edges).1,
        (nodeFocusFold A g.edges).2⟩ := by
  unfold computeFocus
  dsimp only
  rw [if_neg hA]

theorem computeFocus_pair (g : Graph) (eid x y : String) (hne : eid ≠ "")
    (hsplit : splitArrow eid = some (x, y)) :
    computeFocus g none (some eid) =
      ⟨(edge_tracks x y g.tracks).toFinset, {x, y}, {eid}⟩ := by
  unfold computeFocus
  dsimp only
  rw [if_neg hne, hsplit]
  simp

/-- A selected-edge string that does not split into exactly two parts is
caught and contributes nothing to any focus set. -/
theorem computeFocus_malformed (g : Graph) (sn : Option String) (eid : String)
    (hsplit : splitArrow eid = none) :
    computeFocus g sn (some eid) = computeFocus g sn none := by
  unfold computeFocus
  dsimp only
  by_cases hne : eid = ""
  · rw [if_pos hne]
  · rw [if_neg hne, hsplit]

theorem friendly_percent_ne_empty (x : ℚ) : friendly_percent x ≠ "" := by
  unfold friendly_percent
  intro h
  have hd := congrArg String.data h
  rw [String.data_append] at hd
  have h0 := List.append_eq_nil.mp hd
  exact absurd h0.2 (by decide)

theorem dim_mem_node_classes (b1 b2 : Bool) :
    ("dim" ∈ (if b1 then ["dim"] else []) ++ (if b2 then ["selected"] else [])) ↔
      b1 = true := by
  cases b1 <;> cases b2 <;> decide

theorem dim_mem_edge_classes (b1 b2 b3 : Bool) :
    ("dim" ∈ (if b1 then ["selfloop"] else []) ++
        (if b2 then (if b3 then ["focus"] else ["dim"]) else [])) ↔
      b2 = true ∧ b3 = false := by
  cases b1 <;> cases b2 <;> cases b3 <;> decide

theorem mkNodeEl_classes (g : Graph) (fc : Focus) (fm : Bool) (sn : Option String)
    (m : List (String × String)) (course : String) (el : NodeEl)
    (h : mkNodeEl g fc fm sn m course = some el) :
    el.classes =
      (if fm && !(node_tracks course g.tracks).any (fun t => decide (t ∈ fc.tracks))
          && !(decide (course ∈ fc.neighbors)) then ["dim"] else []) ++
        (if sn == some course then ["selected"] else []) := by
  unfold mkNodeEl at h
  cases halk : alookup m course <;> rw [halk] at h
  · simp at h
  · exact (congrArg NodeEl.classes (Option.some.inj h)).symm

theorem mkEdgeEl_classes (g : Graph) (fc : Focus) (fm : Bool)
    (sn se : Option String) (m : List (String × String)) (e : String × String × ℚ)
    (el : EdgeEl) (h : mkEdgeEl g fc fm sn se m e = some el) :
    el.classes =
      (if e.1 == e.2.1 then ["selfloop"] else []) ++
        (if fm && !(e.1 == e.2.1) then
          (if (edge_tracks e.1 e.2.1 g.tracks).any (fun tr => decide (tr ∈ fc.tracks))
              || decide ((e.1 ++ "→" ++ e.2.1) ∈ fc.edges) then ["focus"] else ["dim"])
        else []) := by
  unfold mkEdgeEl at h
  cases h1 : alookup m e.1 <;> rw [h1] at h
  · simp at h
  · cases h2 : alookup m e.2.1 <;> rw [h2] at h
    · simp at h
    · exact (congrArg EdgeEl.classes (Option.some.inj h)).symm

theorem mkEdgeEl_self_label (g : Graph) (fc : Focus) (fm : Bool)
    (sn se : Option String) (m : List (String × String)) (e : String × String × ℚ)
    (el : EdgeEl) (h : mkEdgeEl g fc fm sn se m e = some el) (hself : e.1 = e.2.1) :
    el.label = friendly_percent e.2.2 := by
  unfold mkEdgeEl at h
  cases h1 : alookup m e.1 <;> rw [h1] at h
  · simp at h
  · cases h2 : alookup m e.2.1 <;> rw [h2] at h
    · simp at h
    · have hl := (congrArg EdgeEl.label (Option.some.inj h)).symm
      rw [hl]
      have hbeq : (e.1 == e.2.1) = true := beq_iff_eq.mpr hself
      rw [show (e.1 == e.2.1
          || (!(e.1 == e.2.1) && pyTruthy sn
              && (sn == some e.1 || sn == some e.2.1))
          || (!(e.1 == e.2.1) && pyTruthy se
              && (se == some (e.1 ++ "→" ++ e.2.1)))) = true by rw [hbeq]; rfl]
      rfl

theorem build_some_parts (g : Graph) (sn se : Option String)
    (m u : List (String × String)) (r : List NodeEl × List EdgeEl)
    (h : build_cytoscape_elements g sn se m u = some r) :
    mapMO (mkNodeEl g (computeFocus g sn se) (pyTruthy sn || pyTruthy se) sn m)
        g.nodes = some r.1 ∧
    mapMO (mkEdgeEl g (computeFocus g sn se) (pyTruthy sn || pyTruthy se) sn se m)
        g.edges = some r.2 := by
  unfold build_cytoscape_elements at h
  dsimp only at h
  cases hn : mapMO (mkNodeEl g (computeFocus g sn se) (pyTruthy sn || pyTruthy se) sn m)
      g.nodes <;> rw [hn] at h
  · simp at h
  · cases he : mapMO (mkEdgeEl g (computeFocus g sn se) (pyTruthy sn || pyTruthy se)
        sn se m) g.edges <;> rw [he] at h
    · simp at h
    · rw [← Option.some.inj h]
      exact ⟨rfl, rfl⟩

theorem pyTruthy_some_ne {s : String} (h : s ≠ "") : pyTruthy (some s) = true := by
  simp [pyTruthy, h]

theorem node_tracks_eq_nil (x : String) (tracks : List (String × List String))
    (h : ∀ p ∈ tracks, x ∉ p.2) : node_tracks x tracks = [] := by
  unfold node_tracks
  rw [List.filter_eq_nil_iff.mpr (by intro p hp; simpa using h p hp), List.map_nil]

theorem edge_tracks_of_nil (x y : String) (tracks : List (String × List String))
    (hx : node_tracks x tracks = []) (hy : node_tracks y tracks = []) :
    edge_tracks x y tracks = [] := by
  unfold edge_tracks
  dsimp only
  rw [hx, hy]
  rfl

/-- C10: `edge_tracks` is symmetric in its endpoints, and its result is a
sorted list, hence independent of Python's set iteration order. -/
theorem C10_edge_tracks_symm_sorted (tracks : List (String × List String)) (a b : String) :
    edge_tracks a b tracks = edge_tracks b a tracks ∧
    List.Sorted (fun x y : String => x ≤ y) (edge_tracks a b tracks) :=
  ⟨edge_tracks_comm a b tracks, edge_tracks_sorted a b tracks⟩

/-- C4: for endpoints sharing at least one track, the edge-track set is the
intersection of the endpoints' track sets; for endpoints sharing none, it is
their union; two endpoints with identical single-track membership yield that
singleton. -/
theorem C4_edge_tracks_rule (tracks : List (String × List String)) (src dst : String) :
    ((∃ t, t ∈ node_tracks src tracks ∧ t ∈ node_tracks dst tracks) →
      (edge_tracks src dst tracks).toFinset =
        (node_tracks src tracks).toFinset ∩ (node_tracks dst tracks).toFinset) ∧
    ((¬∃ t, t ∈ node_tracks src tracks ∧ t ∈ node_tracks dst tracks) →
      (edge_tracks src dst tracks).toFinset =
        (node_tracks src tracks).toFinset ∪ (node_tracks dst tracks).toFinset) ∧
    (∀ t, node_tracks src tracks = [t] → node_tracks dst tracks = [t] →
      edge_tracks src dst tracks = [t]) :=
  ⟨edge_tracks_toFinset_inter src dst tracks,
   edge_tracks_toFinset_union src dst tracks,
   fun _ => edge_tracks_singleton src dst _ tracks⟩

/-- Witness for C4 at the spec's example: Algebra I in tracks Regular and
Honors, Geometry in Honors only, so the edge-track set is the intersection
set, the singleton Honors. -/
theorem C4_witness :
    (edge_tracks "Algebra I" "Geometry"
        [("Regular", ["Algebra I"]), ("Honors", ["Algebra I", "Geometry"])]).toFinset =
      (node_tracks "Algebra I"
          [("Regular", ["Algebra I"]), ("Honors", ["Algebra I", "Geometry"])]).toFinset ∩
        (node_tracks "Geometry"
          [("Regular", ["Algebra I"]), ("Honors", ["Algebra I", "Geometry"])]).toFinset :=
  (C4_edge_tracks_rule
      [("Regular", ["Algebra I"]), ("Honors", ["Algebra I", "Geometry"])]
      "Algebra I" "Geometry").1 ⟨"Honors", by decide, by decide⟩

/-- C6: a selected-edge identifier that does not split into exactly two parts
at the arrow separator is caught: it contributes nothing to the focus track
set, focus neighborhood, or focus edge set, and the detail panel falls back to
displaying the raw identifier string. -/
theorem C6_malformed_edge_id (g : Graph) (sn : Option String) (eid : String)
    (hsplit : splitArrow eid = none) :
    computeFocus g sn (some eid) = computeFocus g sn none ∧
    (arrow_details g eid).fromTo = none ∧
    (arrow_details g eid).raw = some eid := by
  refine ⟨computeFocus_malformed g sn eid hsplit, ?_, ?_⟩ <;>
    · unfold arrow_details
      rw [hsplit]

/-- Witness for C6 at the arrow-free identifier `"AB"`. -/
theorem C6_witness :
    splitArrow "AB" = none ∧
    computeFocus ⟨[], [], [], []⟩ none (some "AB") =
      computeFocus ⟨[], [], [], []⟩ none none ∧
    (arrow_details ⟨[], [], [], []⟩ "AB").raw = some "AB" := by
  have h := C6_malformed_edge_id ⟨[], [], [], []⟩ none "AB" (by decide)
  exact ⟨by decide, h.1, h.2.2⟩

/-- C8: `make_unique_ids` is a pure deterministic function of the input list:
running the assignment twice on the same list yields identical forward and
reverse mappings.  The embedding is derived from the source, whose only
external dependency, `hashlib.md5`, is itself a pure function of the name's
bytes (modelled by `md5hex8`); no randomness parameter exists. -/
theorem C8_deterministic (courses : List String) :
    make_unique_ids courses = make_unique_ids courses :=
  rfl

/-- C9: every identifier produced by `make_unique_ids` is non-empty and drawn
from the alphabet `[a-z0-9_]` (base slugs by construction of `slugify`
including its `"node"` fallback, hash suffixes because MD5 hex digests are
lower-case hexadecimal, numeric suffixes because they are decimal digits). -/
theorem C9_identifier_alphabet (courses : List String) (c u : String)
    (h : alookup (make_unique_ids courses).1 c = some u) :
    u ≠ "" ∧ ∀ ch ∈ u.data, isIdentChar ch :=
  make_unique_ids_uid_ok courses h

/-- Witness for C9: the name `"Algebra I!"` is assigned the identifier
`"algebra_i"`, which is non-empty and inside the alphabet. -/
theorem C9_witness :
    alookup (make_unique_ids ["Algebra I!"]).1 "Algebra I!" = some "algebra_i" ∧
    ("algebra_i" ≠ "" ∧ ∀ ch ∈ ("algebra_i" : String).data, isIdentChar ch) :=
  ⟨by decide, C9_identifier_alphabet ["Algebra I!"] "Algebra I!" "algebra_i" (by decide)⟩

theorem append_arrow_inj (a : List Char) :
    ∀ (c : List Char) (b d : List Char), '→' ∉ a → '→' ∉ c →
      a ++ '→' :: b = c ++ '→' :: d → a = c ∧ b = d := by
  induction a with
  | nil =>
    intro c b d _ hc h
    match c with
    | [] => simpa using h
    | x :: c' =>
      rw [List.nil_append, List.cons_append] at h
      have hx : '→' = x := (List.cons.injEq .. ▸ h).1
      exact absurd (hx ▸ List.mem_cons_self x c') hc
  | cons y a' ih =>
    intro c b d ha hc h
    match c with
    | [] =>
      rw [List.nil_append, List.cons_append] at h
      have hy : y = '→' := (List.cons.injEq .. ▸ h).1
      exact absurd (hy ▸ List.mem_cons_self y a') ha
    | x :: c' =>
      rw [List.cons_append, List.cons_append] at h
      have hhead : y = x := (List.cons.injEq .. ▸ h).1
      have htail := (List.cons.injEq .. ▸ h).2
      have ha' : '→' ∉ a' := fun hm => ha (List.mem_cons_of_mem _ hm)
      have hc' : '→' ∉ c' := fun hm => hc (List.mem_cons_of_mem _ hm)
      obtain ⟨h1, h2⟩ := ih c' b d ha' hc' htail
      exact ⟨by rw [hhead, h1], h2⟩

theorem uidOk_no_arrow {u : String} (hu : UidOk u) : '→' ∉ u.data := by
  intro hmem
  exact absurd (hu.2 '→' hmem) (by decide)

theorem arrow_join_data (a b : String) :
    (a ++ "→" ++ b).data = a.data ++ '→' :: b.data := by
  rw [String.data_append, String.data_append]
  rw [List.append_assoc]
  rfl

/-- C7: for two edges with distinct ordered endpoint pairs (both endpoints
present in the forward map), the derived edge identifiers — the two node
identifiers joined by the arrow separator — are distinct, because node
identifiers are unique and never contain the separator character. -/
theorem C7_edge_id_unique (courses : List String) (s₁ t₁ s₂ t₂ u₁ v₁ u₂ v₂ : String)
    (hs₁ : alookup (make_unique_ids courses).1 s₁ = some u₁)
    (ht₁ : alookup (make_unique_ids courses).1 t₁ = some v₁)
    (hs₂ : alookup (make_unique_ids courses).1 s₂ = some u₂)
    (ht₂ : alookup (make_unique_ids courses).1 t₂ = some v₂)
    (hne : (s₁, t₁) ≠ (s₂, t₂)) :
    u₁ ++ "→" ++ v₁ ≠ u₂ ++ "→" ++ v₂ := by
  intro heq
  have hd := congrArg String.data heq
  rw [arrow_join_data, arrow_join_data] at hd
  have hu₁ := uidOk_no_arrow (make_unique_ids_uid_ok courses hs₁)
  have hu₂ := uidOk_no_arrow (make_unique_ids_uid_ok courses hs₂)
  obtain ⟨h1, h2⟩ := append_arrow_inj u₁.data u₂.data v₁.data v₂.data hu₁ hu₂ hd
  have hu : u₁ = u₂ := String.ext h1
  have hv : v₁ = v₂ := String.ext h2
  have hss : s₁ = s₂ := make_unique_ids_injective courses hs₁ (hu ▸ hs₂)
  have htt : t₁ = t₂ := make_unique_ids_injective courses ht₁ (hv ▸ ht₂)
  exact hne (by rw [hss, htt])

/-- Witness for C7: for nodes A and B, the edges (A, B) and (B, A) get the
distinct identifiers a→b and b→a. -/
theorem C7_witness :
    alookup (make_unique_ids ["A", "B"]).1 "A" = some "a" ∧
    alookup (make_unique_ids ["A", "B"]).1 "B" = some "b" ∧
    ("a" ++ "→" ++ "b") ≠ ("b" ++ "→" ++ "a") :=
  ⟨by decide, by decide,
    C7_edge_id_unique ["A", "B"] "A" "B" "B" "A" "a" "b" "b" "a"
      (by decide) (by decide) (by decide) (by decide) (by decide)⟩

/-- Counterexample to C1 as stated: for the duplicate input
`["Algebra I", "Algebra I"]` the claim asserts both identifiers `algebra_i`
and `algebra_i_<hash>` are present in the reverse map; in fact the forward
dict is keyed by name, so the second occurrence overwrites the first and the
reverse map contains only the hash-suffixed identifier — `algebra_i` maps to
nothing. -/
theorem C1_counterexample :
    alookup (make_unique_ids ["Algebra I", "Algebra I"]).2 "algebra_i" = none ∧
    (make_unique_ids ["Algebra I", "Algebra I"]).2 =
      [("algebra_i_63e9cffb", "Algebra I")] := by
  constructor <;> decide

/-- C1 (amended): identifiers stored by `make_unique_ids` are pairwise
distinct, and the forward and reverse dictionaries are mutually inverse over
the names retained; but the forward dict is keyed by name, so a duplicated
name keeps only the identifier of its last occurrence — for
`["Algebra I", "Algebra I"]` the identifiers generated in sequence are
`algebra_i` then `algebra_i_63e9cffb`, and the maps retain only the latter,
whose reverse entry points back to `"Algebra I"`. -/
theorem C1_amended (courses : List String) :
    (valuesOf (make_unique_ids courses).1).Nodup ∧
    (∀ c u, alookup (make_unique_ids courses).1 c = some u →
      alookup (make_unique_ids courses).2 u = some c) ∧
    (∀ u c, alookup (make_unique_ids courses).2 u = some c →
      alookup (make_unique_ids courses).1 c = some u) ∧
    make_unique_ids ["Algebra I", "Algebra I"] =
      ([("Algebra I", "algebra_i_63e9cffb")], [("algebra_i_63e9cffb", "Algebra I")]) :=
  ⟨make_unique_ids_values_nodup courses,
   fun _ _ h => make_unique_ids_left_inverse courses h,
   fun _ _ h => make_unique_ids_right_inverse courses h,
   by decide⟩

/-- Witness for the amended C1: the identifier stored for `"Algebra I"` in the
duplicate run round-trips through the reverse map. -/
theorem C1_witness :
    alookup (make_unique_ids ["Algebra I", "Algebra I"]).1 "Algebra I" =
      some "algebra_i_63e9cffb" ∧
    alookup (make_unique_ids ["Algebra I", "Algebra I"]).2 "algebra_i_63e9cffb" =
      some "Algebra I" :=
  ⟨by decide,
    (C1_amended ["Algebra I", "Algebra I"]).2.1 "Algebra I" "algebra_i_63e9cffb" (by decide)⟩

/-- C5: every self-loop edge record produced by `build_cytoscape_elements`
carries a non-empty label, the probability rendered as a percentage,
regardless of the selection state. -/
theorem C5_self_loop_label (g : Graph) (sn se : Option String)
    (m u : List (String × String)) (ns : List NodeEl) (es : List EdgeEl)
    (hb : build_cytoscape_elements g sn se m u = some (ns, es))
    (i : Nat) (hi : i < g.edges.length) (hj : i < es.length)
    (hself : (g.edges.get ⟨i, hi⟩).1 = (g.edges.get ⟨i, hi⟩).2.1) :
    (es.get ⟨i, hj⟩).label = friendly_percent (g.edges.get ⟨i, hi⟩).2.2 ∧
    (es.get ⟨i, hj⟩).label ≠ "" := by
  have hparts := (build_some_parts g sn se m u (ns, es) hb).2
  have hone := mapMO_get _ g.edges es hparts i hi hj
  have hl := mkEdgeEl_self_label g (computeFocus g sn se) (pyTruthy sn || pyTruthy se)
    sn se m (g.edges.get ⟨i, hi⟩) (es.get ⟨i, hj⟩) hone hself
  exact ⟨hl, hl ▸ friendly_percent_ne_empty _⟩

/-- Witness for C5: a 20 % self-loop on course A renders label "20%". -/
theorem C5_witness :
    build_cytoscape_elements ⟨["A"], [("A", "A", mkRat 1 5)], [], []⟩ none none
        [("A", "a")] [] =
      some ([⟨"a", "A", "#2B2D42", 1, "#111827", 2, [], none⟩],
        [⟨"a→a", "a", "a", "20%", "#8D99AE", mkRat 85 100, ["selfloop"]⟩]) ∧
    (⟨"a→a", "a", "a", "20%", "#8D99AE", mkRat 85 100, ["selfloop"]⟩ : EdgeEl).label ≠ "" :=
  ⟨by decide,
    (C5_self_loop_label ⟨["A"], [("A", "A", mkRat 1 5)], [], []⟩ none none [("A", "a")] []
      [⟨"a", "A", "#2B2D42", 1, "#111827", 2, [], none⟩]
      [⟨"a→a", "a", "a", "20%", "#8D99AE", mkRat 85 100, ["selfloop"]⟩]
      (by decide) 0 (by decide) (by decide) (by decide)).2⟩

/-- Counterexample to C3 as stated: the claim exempts A itself from dimming
("neither A itself"), but when the selected course has no tracks and no
incident edges the code dims it — its record carries the `dim` class, the dim
fill color, and low opacity alongside `selected`. -/
theorem C3_counterexample :
    build_cytoscape_elements ⟨["A"], [], [], []⟩ (some "A") none [("A", "a")] [] =
      some ([⟨"a", "A", "#D0D4DC", mkRat 18 100, "#111827", 6,
        ["dim", "selected"], none⟩], []) := by
  decide

/-- C3 (amended): with course A selected (and no edge selection), a node is
dimmed exactly when it shares no track with A and is not an endpoint of any
edge incident to A.  A itself is therefore dimmed when it has no track and no
incident edge.  With no selection active, no node and no edge is dimmed. -/
theorem C3_amended (g : Graph) (m u : List (String × String)) (A : String) :
    (∀ ns es, A ≠ "" →
      build_cytoscape_elements g (some A) none m u = some (ns, es) →
      ∀ i (hi : i < g.nodes.length) (hj : i < ns.length),
        ("dim" ∈ (ns.get ⟨i, hj⟩).classes ↔
          ((∀ t ∈ node_tracks (g.nodes.get ⟨i, hi⟩) g.tracks,
              t ∉ node_tracks A g.tracks) ∧
            ∀ e ∈ g.edges, (e.1 = A ∨ e.2.1 = A) →
              g.nodes.get ⟨i, hi⟩ ≠ e.1 ∧ g.nodes.get ⟨i, hi⟩ ≠ e.2.1))) ∧
    (∀ ns es, build_cytoscape_elements g none none m u = some (ns, es) →
      (∀ el ∈ ns, "dim" ∉ el.classes) ∧ ∀ el ∈ es, "dim" ∉ el.classes) := by
  constructor
  · intro ns es hA hb i hi hj
    have hparts := (build_some_parts g (some A) none m u (ns, es) hb).1
    have hone := mapMO_get _ g.nodes ns hparts i hi hj
    have hcl := mkNodeEl_classes g _ _ _ m (g.nodes.get ⟨i, hi⟩) _ hone
    rw [hcl, dim_mem_node_classes]
    rw [computeFocus_node g A hA]
    have hfm : (pyTruthy (some A) || pyTruthy none) = true := by
      rw [pyTruthy_some_ne hA]
      rfl
    rw [hfm]
    simp only [Bool.true_and, Bool.and_eq_true, Bool.not_eq_true',
      List.any_eq_false, decide_eq_true_eq, decide_eq_false_iff_not]
    constructor
    · rintro ⟨h1, h2⟩
      refine ⟨fun t ht hmem => h1 t ht (List.mem_toFinset.mpr hmem),
        fun e he hinc => ⟨fun heq => ?_, fun heq => ?_⟩⟩
      · exact h2 ((mem_nodeFocusFold_fst A _ g.edges).mpr ⟨e, he, hinc, Or.inl heq⟩)
      · exact h2 ((mem_nodeFocusFold_fst A _ g.edges).mpr ⟨e, he, hinc, Or.inr heq⟩)
    · rintro ⟨h1, h2⟩
      refine ⟨fun t ht hmem => h1 t ht (List.mem_toFinset.mp hmem), fun hmem => ?_⟩
      obtain ⟨e, he, hinc, hend⟩ := (mem_nodeFocusFold_fst A _ g.edges).mp hmem
      rcases hend with heq | heq
      · exact (h2 e he hinc).1 heq
      · exact (h2 e he hinc).2 heq
  · intro ns es hb
    have hparts := build_some_parts g none none m u (ns, es) hb
    constructor
    · intro el hel
      obtain ⟨course, _, hone⟩ := mapMO_mem _ g.nodes ns hparts.1 el hel
      rw [mkNodeEl_classes g _ _ _ m course _ hone, dim_mem_node_classes]
      simp [pyTruthy]
    · intro el hel
      obtain ⟨e, _, hone⟩ := mapMO_mem _ g.edges es hparts.2 el hel
      rw [mkEdgeEl_classes g _ _ _ _ m e _ hone, dim_mem_edge_classes]
      simp [pyTruthy]

/-- Witness for the amended C3: with A selected in a graph where A is in track
T and C is trackless and isolated, C's record is dimmed. -/
theorem C3_witness :
    build_cytoscape_elements ⟨["A", "C"], [], [("T", ["A"])], []⟩ (some "A") none
        [("A", "a"), ("C", "c")] [] =
      some ([⟨"a", "A", "#2B2D42", 1, "#111827", 6, ["selected"], none⟩,
        ⟨"c", "C", "#D0D4DC", mkRat 18 100, "#111827", 2, ["dim"], none⟩], []) ∧
    "dim" ∈ (⟨"c", "C", "#D0D4DC", mkRat 18 100, "#111827", 2, ["dim"],
      none⟩ : NodeEl).classes := by
  refine ⟨by decide, ?_⟩
  have h := (C3_amended ⟨["A", "C"], [], [("T", ["A"])], []⟩
      [("A", "a"), ("C", "c")] [] "A").1
    [⟨"a", "A", "#2B2D42", 1, "#111827", 6, ["selected"], none⟩,
      ⟨"c", "C", "#D0D4DC", mkRat 18 100, "#111827", 2, ["dim"], none⟩] []
    (by decide) (by decide) 1 (by decide) (by decide)
  exact h.mpr (by decide)

/-- Counterexample to C2 as stated: selecting the pair X→Y whose endpoints are
absent from the graph does not raise, but the records are NOT those of the
no-selection state: focus mode is entered with empty focus sets, so the sole
node A is dimmed, whereas without a selection it is not. -/
theorem C2_counterexample :
    build_cytoscape_elements ⟨["A"], [], [], []⟩ none (some "X→Y") [("A", "a")] [] =
      some ([⟨"a", "A", "#D0D4DC", mkRat 18 100, "#111827", 2, ["dim"], none⟩], []) ∧
    build_cytoscape_elements ⟨["A"], [], [], []⟩ none none [("A", "a")] [] =
      some ([⟨"a", "A", "#2B2D42", 1, "#111827", 2, [], none⟩], []) := by
  constructor <;> decide

/-- C2 (amended): a course-pair selection whose endpoints are not present in
the graph's nodes never raises (the derivation is total), but it does not
degrade to "no focus": focus mode is entered with the unknown endpoints as the
only neighborhood, so when the endpoints also appear in no track and the
selected identifier matches no edge, every node record and every non-self-loop
edge record is dimmed. -/
theorem C2_amended (g : Graph) (m u : List (String × String)) (eid x y : String)
    (ns : List NodeEl) (es : List EdgeEl)
    (hne : eid ≠ "") (hsplit : splitArrow eid = some (x, y))
    (hx : x ∉ g.nodes) (hy : y ∉ g.nodes)
    (hxt : ∀ p ∈ g.tracks, x ∉ p.2) (hyt : ∀ p ∈ g.tracks, y ∉ p.2)
    (heid : ∀ e ∈ g.edges, e.1 ++ "→" ++ e.2.1 ≠ eid)
    (hb : build_cytoscape_elements g none (some eid) m u = some (ns, es)) :
    (∀ el ∈ ns, "dim" ∈ el.classes) ∧
    (∀ i (hi : i < g.edges.length) (hj : i < es.length),
      (g.edges.get ⟨i, hi⟩).1 ≠ (g.edges.get ⟨i, hi⟩).2.1 →
      "dim" ∈ (es.get ⟨i, hj⟩).classes) := by
  have hfc := computeFocus_pair g eid x y hne hsplit
  have hTr : edge_tracks x y g.tracks = [] :=
    edge_tracks_of_nil x y g.tracks (node_tracks_eq_nil x g.tracks hxt)
      (node_tracks_eq_nil y g.tracks hyt)
  have hparts := build_some_parts g none (some eid) m u (ns, es) hb
  have hfm : (pyTruthy none || pyTruthy (some eid)) = true := by
    rw [pyTruthy_some_ne hne]
    rfl
  constructor
  · intro el hel
    obtain ⟨course, hc, hone⟩ := mapMO_mem _ g.nodes ns hparts.1 el hel
    rw [mkNodeEl_classes g _ _ _ m course _ hone, dim_mem_node_classes, hfc, hTr, hfm]
    have hcx : course ≠ x := fun heq => hx (heq ▸ hc)
    have hcy : course ≠ y := fun heq => hy (heq ▸ hc)
    simp [hcx, hcy]
  · intro i hi hj hself
    have hone := mapMO_get _ g.edges es hparts.2 i hi hj
    rw [mkEdgeEl_classes g _ _ _ _ m _ _ hone, dim_mem_edge_classes, hfc, hTr, hfm]
    have hbeq : ((g.edges.get ⟨i, hi⟩).1 == (g.edges.get ⟨i, hi⟩).2.1) = false :=
      beq_eq_false_iff_ne.mpr hself
    have heq := heid (g.edges.get ⟨i, hi⟩) (List.get_mem g.edges i hi)
    simp [hbeq, heq]
    exact ⟨hself, heq⟩

/-- Witness for the amended C2: the node record produced for A under the
unknown-pair selection X→Y carries the `dim` class. -/
theorem C2_witness :
    "dim" ∈ (⟨"a", "A", "#D0D4DC", mkRat 18 100, "#111827", 2, ["dim"],
      none⟩ : NodeEl).classes := by
  have h := C2_amended ⟨["A"], [], [], []⟩ [("A", "a")] [] "X→Y" "X" "Y"
    [⟨"a", "A", "#D0D4DC", mkRat 18 100, "#111827", 2, ["dim"], none⟩] []
    (by decide) (by decide) (by decide) (by decide) (by decide) (by decide)
    (by decide) (by decide)
  exact h.1 _ (List.mem_cons_self _ _)
